import Mathlib

/-!
# Verification of the artillery multi-worker runner coordinator

A shallow embedding of `lib/runner.js`: the coordinator that spawns worker
processes, buffers their periodic stats snapshots, flushes combined reports
on a timer, deduplicates phase-start notifications, and detects completion.

State is modelled explicitly (`RunnerState`), worker messages and timer
ticks are inductive data, and each handler of the source file becomes a
Lean function over that state.  JS numbers carried by snapshots are
modelled as rationals, pids as naturals.  The handler for worker messages
returns `Option`: `none` models the uncaught `TypeError` thrown when the
code dereferences a missing worker handle.
-/

namespace Artillery

/-- A phase descriptor carried by a `phaseStarted` message
(`message.phase`, with its `index` field and opaque metadata). -/
structure Phase where
  index : ℤ
  meta : ℕ
deriving DecidableEq, Repr

/-- A stats snapshot produced by a worker: the `_concurrency` gauge the
coordinator reads, plus an opaque marker standing for the remaining
measurement payload. -/
structure Snapshot where
  conc : ℚ
  tag : ℕ
deriving DecidableEq, Repr

/-- A combined report as produced by `stats.combine` and then possibly
mutated by the coordinator (`combined._concurrency = averageConcurrency`). -/
structure Report where
  merged : List Snapshot
  conc : ℚ
deriving DecidableEq, Repr

/-- Modelled from the spec: the external combine primitive of
`artillery-core` (`stats.combine`) is out of scope and specified only as a
commutative/associative merge of snapshots.  We model it symbolically: the
report records the list of snapshots merged, and its own concurrency field
is the sum of the inputs' gauges (any value would do — the coordinator
overwrites it in the periodic flush). -/
def combine (xs : List Snapshot) : Report :=
  { merged := xs, conc := (xs.map Snapshot.conc).sum }

/-- JS `Math.round`: round half toward positive infinity. -/
def jsRound (x : ℚ) : ℤ := ⌊x + 1 / 2⌋

/-- Modelled from the spec: the external `round` primitive of
`artillery-core` (`stats.round(value, precision)`), rounding to `p`
decimal places. -/
def sround (x : ℚ) (p : ℕ) : ℚ :=
  (jsRound (x * 10 ^ p) : ℚ) / 10 ^ p

/-- The per-worker handle stored in `this._workers[pid]`
(the `proc` process reference is an external resource and not modelled). -/
structure WorkerHandle where
  isDone : Bool
deriving DecidableEq, Repr

/-- The coordinator's worker registry `this._workers`, an object keyed by
pid, modelled as an association list with unique keys. -/
abbrev WMap := List (ℕ × WorkerHandle)

/-- The mutable state of a `Runner` instance. -/
structure RunnerState where
  workers : WMap
  currentPhase : ℤ
  intermediates : List (ℕ × Snapshot)
  allIntermediates : List Snapshot
deriving DecidableEq, Repr

/-- The state set up by the `Runner` constructor: empty registry, phase
`-1`, both snapshot buffers empty. -/
def runnerInit : RunnerState :=
  { workers := [], currentPhase := -1, intermediates := [], allIntermediates := [] }

/-- Events emitted on `this.events` to the caller. -/
inductive Event where
  | phaseStarted (ph : Phase)
  | statsEv (r : Report)
  | doneEv (r : Report)
deriving DecidableEq, Repr

/-- Inbound worker messages (§6 of the spec): the four recognized event
kinds, plus `other` for any unrecognized event discriminator. -/
inductive Msg where
  | phaseStarted (ph : Phase)
  | phaseCompleted
  | statsMsg (pid : ℕ) (s : Snapshot)
  | doneMsg (pid : ℕ)
  | other (event : String)
deriving DecidableEq, Repr

/-- Lookup in the worker registry: `this._workers[pid]`
(`undefined`, i.e. `none`, when the pid is not a key). -/
def wfind (pid : ℕ) : WMap → Option WorkerHandle
  | [] => none
  | (q, h) :: rest => if q = pid then some h else wfind pid rest

/-- `worker.isDone = true`: mark the handle stored under `pid` as done. -/
def setDone (pid : ℕ) : WMap → WMap
  | [] => []
  | (q, h) :: rest =>
      if q = pid then (q, { h with isDone := true }) :: rest
      else (q, h) :: setDone pid rest

/-- `Runner.prototype._activeWorkerCount`: start from the number of keys
and decrement once for every worker whose handle is marked done. -/
def activeWorkerCount (workers : WMap) : ℕ :=
  workers.foldl (fun count e => if e.2.isDone then count - 1 else count) workers.length

/-- One step of the `L.reduce` callback in `_sendStats`:
`acc[pid] = max(acc[pid], c)` when the key is already present,
`acc[pid] = c` otherwise. -/
def accumulateMax : List (ℕ × ℚ) → ℕ → ℚ → List (ℕ × ℚ)
  | [], pid, c => [(pid, c)]
  | (q, d) :: rest, pid, c =>
      if q = pid then (q, max d c) :: rest
      else (q, d) :: accumulateMax rest pid c

/-- The `maxWorkerConcurrencies` object of `_sendStats`: fold the pending
`(pid, snapshot)` buffer into a map from pid to the maximum `_concurrency`
seen for that pid.  (Iteration order of the JS object is immaterial
downstream: only the sum of its values is used.) -/
def maxWorkerConcurrencies (ints : List (ℕ × Snapshot)) : List (ℕ × ℚ) :=
  ints.foldl (fun acc el => accumulateMax acc el.1 el.2.conc) []

/-- `L.sum(L.map(obj, v => v))`: the sum of the values of the map. -/
def valuesSum (l : List (ℕ × ℚ)) : ℚ :=
  (l.map Prod.snd).sum

/-- `Runner.prototype._sendStats`: compute the aggregate concurrency from
per-worker maxima, combine the pending snapshots, overwrite the combined
report's concurrency, emit a `stats` event, and clear the pending buffer. -/
def sendStats (s : RunnerState) : RunnerState × Event :=
  let averageConcurrency := sround (valuesSum (maxWorkerConcurrencies s.intermediates)) 1
  let combined := combine (s.intermediates.map Prod.snd)
  let combined := { combined with conc := averageConcurrency }
  ({ s with intermediates := [] }, Event.statsEv combined)

/-- `Runner.prototype._onWorkerMessage`.  Returns the updated state and the
list of events emitted while handling the message, or `none` for the fault
(`TypeError`) raised by `worker.isDone = true` when `this._workers[pid]`
is `undefined`. -/
def onWorkerMessage (s : RunnerState) (m : Msg) : Option (RunnerState × List Event) :=
  match m with
  | Msg.phaseStarted ph =>
      if s.currentPhase < ph.index then
        some ({ s with currentPhase := ph.index }, [Event.phaseStarted ph])
      else
        some (s, [])
  | Msg.phaseCompleted => some (s, [])
  | Msg.statsMsg pid snap =>
      some ({ s with
                intermediates := s.intermediates ++ [(pid, snap)],
                allIntermediates := s.allIntermediates ++ [snap] }, [])
  | Msg.doneMsg pid =>
      match wfind pid s.workers with
      | none => none
      | some _ =>
          let s1 := { s with workers := setDone pid s.workers }
          if activeWorkerCount s1.workers = 0 then
            let (s2, ev) := sendStats s1
            some (s2, [ev, Event.doneEv (combine s2.allIntermediates)])
          else
            some (s1, [])
  | Msg.other _ => some (s, [])

/-- Process a sequence of inbound worker messages, concatenating the
emitted events; a fault anywhere aborts processing. -/
def processMsgs (s : RunnerState) : List Msg → Option (RunnerState × List Event)
  | [] => some (s, [])
  | m :: rest =>
      match onWorkerMessage s m with
      | none => none
      | some (s1, evs) =>
          match processMsgs s1 rest with
          | none => none
          | some (s2, evs') => some (s2, evs ++ evs')

/-- An externally observable stimulus: a worker message arriving, or the
periodic `setInterval` timer firing (which invokes `_sendStats`). -/
inductive Action where
  | msg (m : Msg)
  | tick
deriving DecidableEq, Repr

/-- One stimulus step of the coordinator. -/
def stepAction (s : RunnerState) : Action → Option (RunnerState × List Event)
  | Action.msg m => onWorkerMessage s m
  | Action.tick =>
      let (s1, ev) := sendStats s
      some (s1, [ev])

/-- Process a sequence of stimuli. -/
def processActions (s : RunnerState) : List Action → Option (RunnerState × List Event)
  | [] => some (s, [])
  | a :: rest =>
      match stepAction s a with
      | none => none
      | some (s1, evs) =>
          match processActions s1 rest with
          | none => none
          | some (s2, evs') => some (s2, evs ++ evs')

/-- A JS value in the `numWorkers` fallback chain: the environment
variable's string, a numeric literal, or `undefined`. -/
inductive JSVal where
  | str (s : String)
  | num (n : ℕ)
  | undef
deriving DecidableEq, Repr

/-- JS truthiness for the values appearing in the chain. -/
def truthy : JSVal → Bool
  | JSVal.str s => s ≠ ""
  | JSVal.num n => n ≠ 0
  | JSVal.undef => false

/-- JS `||`: the left operand if truthy, otherwise the right. -/
def jsOr (a b : JSVal) : JSVal :=
  if truthy a then a else b

/-- `process.env.ARTILLERY_WORKERS` as a JS value (`undefined` when the
variable is absent). -/
def envVal : Option String → JSVal
  | some s => JSVal.str s
  | none => JSVal.undef

/-- `let numWorkers = process.env.ARTILLERY_WORKERS || 1 || os.cpus().length`
from `Runner.prototype.run`. -/
def numWorkers (env : Option String) (cpuCount : ℕ) : JSVal :=
  jsOr (jsOr (envVal env) (JSVal.num 1)) (JSVal.num cpuCount)

/-- `this._workers[pid] = { proc, isDone: false }`: register a handle
under a pid (overwriting any existing entry, as JS object assignment
does). -/
def setWorker (pid : ℕ) (h : WorkerHandle) : WMap → WMap
  | [] => [(pid, h)]
  | (q, g) :: rest =>
      if q = pid then (q, h) :: rest
      else (q, g) :: setWorker pid h rest

/-- `Runner.prototype.run`: spawn one worker per sub-plan, register each
under its (OS-assigned) pid with `isDone := false`, and send each a `run`
command.  `pids` stands for the pids of the forked processes; the returned
list records the pids that were sent the `run` command.  The `divideWork`
call, the `statsInterval` overwrite on worker scripts and the
`setInterval` installation are external effects with no footprint on
`RunnerState` beyond this.  Nothing here inspects or records whether the
runner has already been started. -/
def run (pids : List ℕ) (s : RunnerState) : RunnerState × List ℕ :=
  ({ s with workers := pids.foldl (fun w pid => setWorker pid { isDone := false } w) s.workers },
   pids)

/-! ## Claims about `run`, the pool size, and the trivial handler branches -/

/-! ## C1: the aggregate concurrency computed by the periodic flush

Spec side: group the pending buffer by worker, take each worker's maximum
gauge, sum the maxima over workers, round to one decimal place. -/

/-- Lookup in the per-pid maxima map built by the `L.reduce`
(`acc[pid]`, `undefined` when absent). -/
def mfind (p : ℕ) : List (ℕ × ℚ) → Option ℚ
  | [] => none
  | (q, d) :: rest => if q = p then some d else mfind p rest

/-- `mergeOpt o c`: the value stored for a pid after one reduce step that
saw gauge `c`, given the previously stored value `o`. -/
def mergeOpt : Option ℚ → ℚ → ℚ
  | some d, c => max d c
  | none, c => c

/-- Fold a list of gauges into an optional running maximum. -/
def foldOpt (o : Option ℚ) (cs : List ℚ) : Option ℚ :=
  cs.foldl (fun o c => some (mergeOpt o c)) o

/-- The concurrency gauges reported by worker `p` among the buffered
`(pid, snapshot)` pairs, in order. -/
def concsOf (p : ℕ) (ints : List (ℕ × Snapshot)) : List ℚ :=
  (ints.filter (fun e => e.1 = p)).map (fun e => e.2.conc)

/-- Maximum of a list of gauges (`0` for the empty list, which the spec
side never uses). -/
def listMaxD : List ℚ → ℚ
  | [] => 0
  | c :: cs => cs.foldl max c

/-- The spec's aggregate concurrency: sum, over the distinct worker ids
occurring in the interval's buffer, of that worker's maximum gauge. -/
def specAggregateConcurrency (ints : List (ℕ × Snapshot)) : ℚ :=
  (((ints.map Prod.fst).dedup).map (fun p => listMaxD (concsOf p ints))).sum

/-! ## C3: monotonic phase timeline -/

/-- The indices of the `phaseStarted` events in an emitted event list. -/
def phaseIndices (evs : List Event) : List ℤ :=
  evs.filterMap fun e =>
    match e with
    | Event.phaseStarted ph => some ph.index
    | _ => none

/-! ## C4 and C5: snapshot bookkeeping across flushes -/

/-- The snapshots carried by one message (`message.stats` for a `stats`
message, nothing otherwise). -/
def statsSnap : Msg → List Snapshot
  | Msg.statsMsg _ snap => [snap]
  | _ => []

/-- The snapshots carried by one stimulus. -/
def statsSnapA : Action → List Snapshot
  | Action.msg m => statsSnap m
  | Action.tick => []

/-- All snapshots received over a stimulus sequence, in arrival order. -/
def statsReceivedA : List Action → List Snapshot
  | [] => []
  | a :: rest => statsSnapA a ++ statsReceivedA rest

/-- The snapshots a single emitted event reports as merged by a flush
(`stats` events only; `done` and `phaseStarted` events report none). -/
def flushReport : Event → List Snapshot
  | Event.statsEv r => r.merged
  | _ => []

/-- All snapshots consumed by the flushes of an emitted event sequence. -/
def flushedMerged : List Event → List Snapshot
  | [] => []
  | e :: rest => flushReport e ++ flushedMerged rest

/-! ## C2: completion exactly once -/

/-- The pids of the `done` messages of a sequence, in arrival order. -/
def donePids : List Msg → List ℕ
  | [] => []
  | Msg.doneMsg pid :: rest => pid :: donePids rest
  | _ :: rest => donePids rest

/-- Whether an event is the run-completion (`done`) event. -/
def isDoneEv : Event → Bool
  | Event.doneEv _ => true
  | _ => false

/-- How many `done` events an emitted event sequence contains. -/
def countDoneEvents (evs : List Event) : ℕ :=
  (evs.filter isDoneEv).length

/-- The number of registry entries not yet marked done. -/
def notDoneCount (w : WMap) : ℕ :=
  (w.filter (fun e => !e.2.isDone)).length

/-! ## Small lemmas about the worker registry and `run` -/

theorem wfind_append (q : ℕ) (w v : WMap) :
    wfind q (w ++ v) = ((wfind q w).rec (wfind q v) (fun h => some h)) := by
  induction w with
  | nil => rfl
  | cons e rest ih =>
      obtain ⟨k, h⟩ := e
      by_cases hk : k = q
      · simp [wfind, hk]
      · simp [wfind, hk, ih]

theorem setWorker_fresh (p : ℕ) (h : WorkerHandle) (w : WMap)
    (hf : wfind p w = none) : setWorker p h w = w ++ [(p, h)] := by
  induction w with
  | nil => rfl
  | cons e rest ih =>
      obtain ⟨k, g⟩ := e
      by_cases hk : k = p
      · subst hk; simp [wfind] at hf
      · simp [wfind, hk] at hf
        simp [setWorker, hk, ih hf]

theorem spawn_fold_fresh (pids : List ℕ) :
    ∀ w : WMap, pids.Nodup → (∀ p ∈ pids, wfind p w = none) →
      pids.foldl (fun w pid => setWorker pid { isDone := false } w) w
        = w ++ pids.map (fun p => (p, { isDone := false })) := by
  induction pids with
  | nil => intro w _ _; simp
  | cons p rest ih =>
      intro w hnd hf
      have hp : wfind p w = none := hf p (by simp)
      have hrest : ∀ q ∈ rest, wfind q (w ++ [(p, { isDone := false })]) = none := by
        intro q hq
        have hqw : wfind q w = none := hf q (by simp [hq])
        have hqp : q ≠ p := by
          intro hqp; exact (List.nodup_cons.mp hnd).1 (hqp ▸ hq)
        rw [wfind_append, hqw]
        simp [wfind, Ne.symm hqp]
      have := ih (w ++ [(p, { isDone := false })]) (List.nodup_cons.mp hnd).2 hrest
      simp only [List.foldl_cons, setWorker_fresh p _ w hp, this, List.map_cons]
      simp

/-- C6 (counterexample): with `ARTILLERY_WORKERS` present in the
environment but set to the empty string, the chain resolves to the
numeric literal `1`, not to the value read from the environment. -/
theorem numWorkers_present_empty_env_cex :
    numWorkers (some "") 8 = JSVal.num 1 ∧ JSVal.num 1 ≠ JSVal.str "" := by
  constructor
  · rfl
  · decide

/-- C6 (amended): the pool size resolves to the environment string when it
is present and non-empty, and to `1` when it is absent or empty; the
result never depends on the CPU core count, so the final fallback
(`os.cpus().length`) is unreachable. -/
theorem numWorkers_resolution :
    (∀ (e : Option String) (c c' : ℕ), numWorkers e c = numWorkers e c') ∧
    (∀ (s : String) (c : ℕ), s ≠ "" → numWorkers (some s) c = JSVal.str s) ∧
    (∀ c : ℕ, numWorkers none c = JSVal.num 1) ∧
    (∀ c : ℕ, numWorkers (some "") c = JSVal.num 1) := by
  refine ⟨?_, ?_, ?_, ?_⟩
  · intro e c c'
    cases e with
    | none => rfl
    | some s =>
        by_cases hs : s = "" <;> simp [numWorkers, envVal, jsOr, truthy, hs]
  · intro s c hs
    simp [numWorkers, envVal, jsOr, truthy, hs]
  · intro c; rfl
  · intro c; rfl

/-- C6 (witness): a present, non-empty value wins. -/
theorem numWorkers_resolution_witness :
    "4" ≠ "" ∧ numWorkers (some "4") 8 = JSVal.str "4" :=
  ⟨by decide, numWorkers_resolution.2.1 "4" 8 (by decide)⟩

/-- C7: a `phaseCompleted` message, and a message of any unrecognized
event kind, leave the whole runner state (worker registry, current phase
index, both snapshot buffers) unchanged and emit no event. -/
theorem phaseCompleted_and_unrecognized_noop :
    ∀ (s : RunnerState) (ev : String),
      onWorkerMessage s Msg.phaseCompleted = some (s, []) ∧
      onWorkerMessage s (Msg.other ev) = some (s, []) := by
  intro s ev
  exact ⟨rfl, rfl⟩

/-- C8 (counterexample): `run` carries no started/completed guard.  After
a first invocation has spawned worker 1, a second invocation on the same
runner proceeds with full effect: it registers worker 2 and sends it the
`run` command, so `run()` is invocable again after the run has started. -/
theorem run_reinvocable_cex :
    (run [1] runnerInit).1.workers = [(1, { isDone := false })] ∧
    (run [2] ((run [1] runnerInit).1)).1.workers
      = [(1, { isDone := false }), (2, { isDone := false })] ∧
    (run [2] ((run [1] runnerInit).1)).2 = [2] := by
  refine ⟨rfl, rfl, rfl⟩

/-- C8 (amended): the code does not implement the Idle → Running →
Completed guard.  `run()` is unguarded: invoked in any state whatsoever
(already running or completed included), it spawns one not-done worker
per fresh pid, commands each of them, and touches nothing else; calling
it exactly once is a caller obligation, not enforced by the coordinator. -/
theorem run_unguarded (s : RunnerState) (pids : List ℕ)
    (hnd : pids.Nodup) (hf : ∀ p ∈ pids, wfind p s.workers = none) :
    (run pids s).1.workers = s.workers ++ pids.map (fun p => (p, { isDone := false })) ∧
    (run pids s).2 = pids ∧
    (run pids s).1.currentPhase = s.currentPhase ∧
    (run pids s).1.intermediates = s.intermediates ∧
    (run pids s).1.allIntermediates = s.allIntermediates := by
  refine ⟨?_, rfl, rfl, rfl, rfl⟩
  exact spawn_fold_fresh pids s.workers hnd hf

/-- C8 (witness): a second `run` on an already-started runner spawns. -/
theorem run_unguarded_witness :
    ([2] : List ℕ).Nodup ∧
    (run [2] ((run [1] runnerInit).1)).1.workers
      = (run [1] runnerInit).1.workers ++ [(2, { isDone := false })] :=
  ⟨by decide,
   (run_unguarded ((run [1] runnerInit).1) [2] (by decide)
      (by intro p hp; simp at hp; subst hp; rfl)).1⟩

/-- C9: the `done` handler is not total.  For a `done` message whose pid
is not a key of the worker registry, the handler dereferences the missing
handle (`worker.isDone = true` with `worker` being `undefined`) and
faults instead of ignoring the message. -/
theorem done_unknown_pid_faults (s : RunnerState) (pid : ℕ)
    (h : wfind pid s.workers = none) :
    onWorkerMessage s (Msg.doneMsg pid) = none := by
  simp [onWorkerMessage, h]

/-- C9 (witness): a `done` from pid 5 faults on an empty registry. -/
theorem done_unknown_pid_faults_witness :
    wfind 5 runnerInit.workers = none ∧
    onWorkerMessage runnerInit (Msg.doneMsg 5) = none :=
  ⟨rfl, done_unknown_pid_faults runnerInit 5 rfl⟩

/-- C10: a flush with an empty pending buffer still emits a `stats`
event; its report is the combine of the empty collection with the
concurrency overwritten to `round(0, 1) = 0`, and the pending buffer
stays empty. -/
theorem flush_empty_buffer (s : RunnerState) (h : s.intermediates = []) :
    (sendStats s).2 = Event.statsEv { combine [] with conc := sround 0 1 } ∧
    sround 0 1 = 0 ∧
    (sendStats s).1.intermediates = [] ∧
    (sendStats s).1 = s := by
  have hr : sround 0 1 = 0 := by
    norm_num [sround, jsRound]
  refine ⟨?_, hr, ?_, ?_⟩
  · simp [sendStats, h, combine, maxWorkerConcurrencies, valuesSum]
  · rfl
  · cases s with
    | mk w cp ints alls =>
        simp at h
        simp [sendStats, h]

/-- C10 (witness): flushing the freshly constructed runner. -/
theorem flush_empty_buffer_witness :
    runnerInit.intermediates = [] ∧
    (sendStats runnerInit).2 = Event.statsEv { combine [] with conc := sround 0 1 } :=
  ⟨rfl, (flush_empty_buffer runnerInit rfl).1⟩

theorem mfind_accumulateMax (acc : List (ℕ × ℚ)) (p : ℕ) (c : ℚ) (q : ℕ) :
    mfind q (accumulateMax acc p c)
      = if q = p then some (mergeOpt (mfind p acc) c) else mfind q acc := by
  induction acc with
  | nil =>
      by_cases hq : q = p
      · simp [accumulateMax, mfind, hq, mergeOpt]
      · simp [accumulateMax, mfind, hq, Ne.symm hq]
  | cons e rest ih =>
      obtain ⟨k, d⟩ := e
      by_cases hk : k = p
      · subst hk
        by_cases hq : q = k
        · subst hq
          simp [accumulateMax, mfind, mergeOpt]
        · simp [accumulateMax, mfind, hq, Ne.symm hq]
      · by_cases hq : k = q
        · subst hq
          simp [accumulateMax, mfind, hk, fun h : k = p => hk h]
        · simp [accumulateMax, mfind, hk, hq, ih]

theorem mfind_eq_none_iff (p : ℕ) (l : List (ℕ × ℚ)) :
    mfind p l = none ↔ p ∉ l.map Prod.fst := by
  induction l with
  | nil => simp [mfind]
  | cons e rest ih =>
      obtain ⟨k, d⟩ := e
      by_cases hk : k = p
      · subst hk; simp [mfind]
      · simp [mfind, hk, ih, Ne.symm hk]

theorem keys_accumulateMax (acc : List (ℕ × ℚ)) (p : ℕ) (c : ℚ) :
    (accumulateMax acc p c).map Prod.fst
      = if mfind p acc = none then acc.map Prod.fst ++ [p] else acc.map Prod.fst := by
  induction acc with
  | nil => simp [accumulateMax, mfind]
  | cons e rest ih =>
      obtain ⟨k, d⟩ := e
      by_cases hk : k = p
      · subst hk; simp [accumulateMax, mfind]
      · by_cases hrest : mfind p rest = none
        · simp [accumulateMax, mfind, hk, hrest, ih]
        · simp [accumulateMax, mfind, hk, hrest, ih]

theorem nodup_keys_accumulateMax (acc : List (ℕ × ℚ)) (p : ℕ) (c : ℚ)
    (h : (acc.map Prod.fst).Nodup) :
    ((accumulateMax acc p c).map Prod.fst).Nodup := by
  rw [keys_accumulateMax]
  by_cases hp : mfind p acc = none
  · have hmem : p ∉ acc.map Prod.fst := (mfind_eq_none_iff p acc).mp hp
    rw [if_pos hp]
    exact List.Nodup.append h (List.nodup_singleton p)
      (by simpa [List.disjoint_singleton] using hmem)
  · simp [hp, h]

theorem mfind_fold (ints : List (ℕ × Snapshot)) :
    ∀ (acc : List (ℕ × ℚ)) (q : ℕ),
      mfind q (ints.foldl (fun acc el => accumulateMax acc el.1 el.2.conc) acc)
        = foldOpt (mfind q acc) (concsOf q ints) := by
  induction ints with
  | nil => intro acc q; rfl
  | cons e rest ih =>
      intro acc q
      simp only [List.foldl_cons]
      rw [ih]
      by_cases hq : q = e.1
      · have hc : concsOf q (e :: rest) = e.2.conc :: concsOf q rest := by
          simp [concsOf, hq]
        rw [hc, mfind_accumulateMax, if_pos hq, ← hq]
        simp [foldOpt]
      · have hc : concsOf q (e :: rest) = concsOf q rest := by
          simp [concsOf, Ne.symm hq]
        rw [hc, mfind_accumulateMax, if_neg hq]

theorem foldOpt_some (cs : List ℚ) :
    ∀ d : ℚ, foldOpt (some d) cs = some (cs.foldl max d) := by
  induction cs with
  | nil => intro d; rfl
  | cons c cs ih =>
      intro d
      have h1 : foldOpt (some d) (c :: cs) = foldOpt (some (max d c)) cs := rfl
      rw [h1, ih (max d c)]
      rfl

theorem foldOpt_none (cs : List ℚ) (h : cs ≠ []) :
    foldOpt none cs = some (listMaxD cs) := by
  cases cs with
  | nil => exact absurd rfl h
  | cons c cs =>
      have : foldOpt none (c :: cs) = foldOpt (some c) cs := by
        simp [foldOpt, mergeOpt]
      rw [this, foldOpt_some cs c]
      rfl

theorem concsOf_eq_nil_iff (p : ℕ) (ints : List (ℕ × Snapshot)) :
    concsOf p ints = [] ↔ p ∉ ints.map Prod.fst := by
  simp only [concsOf, List.map_eq_nil_iff, List.filter_eq_nil_iff, List.mem_map,
    decide_eq_true_eq]
  constructor
  · rintro h ⟨e, he, hp⟩
    exact h e he hp
  · intro h e he hp
    exact h ⟨e, he, hp⟩

theorem nodup_keys_mwc (ints : List (ℕ × Snapshot)) :
    ((maxWorkerConcurrencies ints).map Prod.fst).Nodup := by
  suffices h : ∀ acc : List (ℕ × ℚ), (acc.map Prod.fst).Nodup →
      ((ints.foldl (fun acc el => accumulateMax acc el.1 el.2.conc) acc).map Prod.fst).Nodup by
    exact h [] (by simp)
  induction ints with
  | nil => intro acc hacc; simpa using hacc
  | cons e rest ih =>
      intro acc hacc
      simp only [List.foldl_cons]
      exact ih _ (nodup_keys_accumulateMax acc e.1 e.2.conc hacc)

theorem mem_keys_mwc (ints : List (ℕ × Snapshot)) (q : ℕ) :
    q ∈ (maxWorkerConcurrencies ints).map Prod.fst ↔ q ∈ ints.map Prod.fst := by
  have hf : mfind q (maxWorkerConcurrencies ints) = foldOpt none (concsOf q ints) := by
    simpa [maxWorkerConcurrencies] using mfind_fold ints [] q
  constructor
  · intro hq
    by_contra hmem
    have hnil : concsOf q ints = [] := (concsOf_eq_nil_iff q ints).mpr hmem
    have : mfind q (maxWorkerConcurrencies ints) = none := by
      rw [hf, hnil]; rfl
    exact ((mfind_eq_none_iff q _).mp this) hq
  · intro hq
    by_contra hmem
    have : mfind q (maxWorkerConcurrencies ints) = none :=
      (mfind_eq_none_iff q _).mpr hmem
    rw [hf] at this
    have hnil : concsOf q ints ≠ [] := fun h => ((concsOf_eq_nil_iff q ints).mp h) hq
    rw [foldOpt_none _ hnil] at this
    exact Option.noConfusion this

theorem valuesSum_eq_sum_keys (l : List (ℕ × ℚ)) (h : (l.map Prod.fst).Nodup) :
    valuesSum l = ((l.map Prod.fst).map (fun p => (mfind p l).getD 0)).sum := by
  induction l with
  | nil => rfl
  | cons e rest ih =>
      obtain ⟨k, v⟩ := e
      simp only [List.map_cons, List.nodup_cons] at h
      obtain ⟨hk, hrest⟩ := h
      have hself : mfind k ((k, v) :: rest) = some v := by simp [mfind]
      have hothers : (rest.map Prod.fst).map (fun p => (mfind p ((k, v) :: rest)).getD 0)
          = (rest.map Prod.fst).map (fun p => (mfind p rest).getD 0) := by
        apply List.map_congr_left
        intro p hp
        have hpk : ¬ k = p := by
          intro hkp
          exact hk (hkp ▸ hp)
        simp [mfind, hpk]
      calc valuesSum ((k, v) :: rest)
          = v + valuesSum rest := by simp [valuesSum]
        _ = v + ((rest.map Prod.fst).map (fun p => (mfind p rest).getD 0)).sum := by
              rw [ih hrest]
        _ = _ := by
              simp only [List.map_cons, List.sum_cons, hself, hothers]
              rfl

theorem valuesSum_maxWorkerConcurrencies (ints : List (ℕ × Snapshot)) :
    valuesSum (maxWorkerConcurrencies ints) = specAggregateConcurrency ints := by
  have hperm : ((maxWorkerConcurrencies ints).map Prod.fst).Perm ((ints.map Prod.fst).dedup) := by
    rw [List.perm_ext_iff_of_nodup (nodup_keys_mwc ints) (List.nodup_dedup _)]
    intro a
    rw [List.mem_dedup]
    exact mem_keys_mwc ints a
  rw [valuesSum_eq_sum_keys _ (nodup_keys_mwc ints)]
  rw [(hperm.map (fun p => (mfind p (maxWorkerConcurrencies ints)).getD 0)).sum_eq]
  unfold specAggregateConcurrency
  congr 1
  apply List.map_congr_left
  intro p hp
  have hmem : p ∈ ints.map Prod.fst := List.mem_dedup.mp hp
  have hnil : concsOf p ints ≠ [] := fun h => ((concsOf_eq_nil_iff p ints).mp h) hmem
  have hf : mfind p (maxWorkerConcurrencies ints) = foldOpt none (concsOf p ints) := by
    simpa [maxWorkerConcurrencies] using mfind_fold ints [] p
  rw [hf, foldOpt_none _ hnil]
  rfl

/-- C1: the periodic flush emits a `stats` event whose concurrency field
is `round` (to one decimal place) of the sum, over the distinct workers
with buffered snapshots, of that worker's maximum buffered `_concurrency`
— overwriting whatever concurrency the combine primitive computed for the
merged report. -/
theorem flush_concurrency_is_sum_of_worker_maxima (s : RunnerState) :
    (sendStats s).2 = Event.statsEv
      { merged := s.intermediates.map Prod.snd,
        conc := sround (specAggregateConcurrency s.intermediates) 1 } := by
  simp [sendStats, combine, valuesSum_maxWorkerConcurrencies]

/-- How one message handler step affects the phase timeline: either it is
a fresh `phaseStarted` that advances `currentPhase` to its index and emits
exactly that phase event, or it leaves `currentPhase` alone and emits no
phase event. -/
theorem step_phase_cases (s : RunnerState) (m : Msg) (s1 : RunnerState) (evs : List Event)
    (h : onWorkerMessage s m = some (s1, evs)) :
    (∃ ph, m = Msg.phaseStarted ph ∧ s.currentPhase < ph.index ∧
       s1.currentPhase = ph.index ∧ phaseIndices evs = [ph.index]) ∨
    (s1.currentPhase = s.currentPhase ∧ phaseIndices evs = []) := by
  cases m with
  | phaseStarted ph =>
      by_cases hlt : s.currentPhase < ph.index
      · left
        simp only [onWorkerMessage, if_pos hlt, Option.some.injEq, Prod.mk.injEq] at h
        obtain ⟨rfl, rfl⟩ := h
        exact ⟨ph, rfl, hlt, rfl, rfl⟩
      · right
        simp only [onWorkerMessage, if_neg hlt, Option.some.injEq, Prod.mk.injEq] at h
        obtain ⟨rfl, rfl⟩ := h
        exact ⟨rfl, rfl⟩
  | phaseCompleted =>
      right
      simp only [onWorkerMessage, Option.some.injEq, Prod.mk.injEq] at h
      obtain ⟨rfl, rfl⟩ := h
      exact ⟨rfl, rfl⟩
  | statsMsg pid snap =>
      right
      simp only [onWorkerMessage, Option.some.injEq, Prod.mk.injEq] at h
      obtain ⟨rfl, rfl⟩ := h
      exact ⟨rfl, rfl⟩
  | doneMsg pid =>
      right
      simp only [onWorkerMessage] at h
      cases hw : wfind pid s.workers with
      | none => rw [hw] at h; cases h
      | some h0 =>
          rw [hw] at h
          by_cases hac : activeWorkerCount (setDone pid s.workers) = 0
          · simp only [hac, if_true, sendStats, Option.some.injEq, Prod.mk.injEq] at h
            obtain ⟨rfl, rfl⟩ := h
            exact ⟨rfl, rfl⟩
          · simp only [hac, if_false, Option.some.injEq, Prod.mk.injEq] at h
            obtain ⟨rfl, rfl⟩ := h
            exact ⟨rfl, rfl⟩
  | other ev =>
      right
      simp only [onWorkerMessage, Option.some.injEq, Prod.mk.injEq] at h
      obtain ⟨rfl, rfl⟩ := h
      exact ⟨rfl, rfl⟩

/-- Inversion for processing a message sequence starting with `m`. -/
theorem processMsgs_cons (s : RunnerState) (m : Msg) (rest : List Msg)
    (s' : RunnerState) (evs : List Event)
    (h : processMsgs s (m :: rest) = some (s', evs)) :
    ∃ s1 evs1 evs2, onWorkerMessage s m = some (s1, evs1) ∧
      processMsgs s1 rest = some (s', evs2) ∧ evs = evs1 ++ evs2 := by
  simp only [processMsgs] at h
  split at h
  · exact Option.noConfusion h
  · rename_i s1 evs1 heq1
    split at h
    · exact Option.noConfusion h
    · rename_i s2 evs2 heq2
      simp only [Option.some.injEq, Prod.mk.injEq] at h
      obtain ⟨rfl, rfl⟩ := h
      exact ⟨s1, evs1, evs2, heq1, heq2, rfl⟩

/-- Inversion for processing an action sequence starting with `a`. -/
theorem processActions_cons (s : RunnerState) (a : Action) (rest : List Action)
    (s' : RunnerState) (evs : List Event)
    (h : processActions s (a :: rest) = some (s', evs)) :
    ∃ s1 evs1 evs2, stepAction s a = some (s1, evs1) ∧
      processActions s1 rest = some (s', evs2) ∧ evs = evs1 ++ evs2 := by
  simp only [processActions] at h
  split at h
  · exact Option.noConfusion h
  · rename_i s1 evs1 heq1
    split at h
    · exact Option.noConfusion h
    · rename_i s2 evs2 heq2
      simp only [Option.some.injEq, Prod.mk.injEq] at h
      obtain ⟨rfl, rfl⟩ := h
      exact ⟨s1, evs1, evs2, heq1, heq2, rfl⟩

/-- C3: over any successfully processed interleaving of worker messages,
the chain `currentPhase₀ :: emitted phase indices` is strictly increasing
(so the emitted `phaseStarted` indices strictly increase and every stale
or duplicate index is discarded), the final `currentPhase` is the last
emitted index (or the initial one if none), and `currentPhase` never
decreases. -/
theorem phase_events_monotonic (msgs : List Msg) :
    ∀ (s s' : RunnerState) (evs : List Event),
      processMsgs s msgs = some (s', evs) →
      List.Chain' (· < ·) (s.currentPhase :: phaseIndices evs) ∧
      s'.currentPhase = (phaseIndices evs).getLastD s.currentPhase ∧
      s.currentPhase ≤ s'.currentPhase := by
  induction msgs with
  | nil =>
      intro s s' evs h
      simp only [processMsgs, Option.some.injEq, Prod.mk.injEq] at h
      obtain ⟨rfl, rfl⟩ := h
      exact ⟨List.chain'_singleton _, rfl, le_refl _⟩
  | cons m rest ih =>
      intro s s' evs h
      obtain ⟨s1, evs1, evs2, h1, h2, rfl⟩ := processMsgs_cons s m rest s' evs h
      obtain ⟨hch, hlast, hle⟩ := ih s1 s' evs2 h2
      rcases step_phase_cases s m s1 evs1 h1 with
        ⟨ph, _, hlt, hcp, hidx⟩ | ⟨hcp, hidx⟩
      · have hpl : phaseIndices (evs1 ++ evs2)
            = ph.index :: phaseIndices evs2 := by
          simp only [phaseIndices, List.filterMap_append] at hidx ⊢
          rw [hidx]
          rfl
        rw [hcp] at hch hlast hle
        refine ⟨?_, ?_, ?_⟩
        · rw [hpl]
          exact List.Chain'.cons hlt hch
        · rw [hpl, hlast, List.getLastD_cons]
        · exact le_of_lt (lt_of_lt_of_le hlt hle)
      · have hpl : phaseIndices (evs1 ++ evs2) = phaseIndices evs2 := by
          simp only [phaseIndices, List.filterMap_append] at hidx ⊢
          rw [hidx]
          rfl
        rw [hcp] at hch hlast hle
        exact ⟨hpl ▸ hch, hpl ▸ hlast, hle⟩

/-- C3 (witness): processing starts fresh at phase `-1`; duplicate and
stale indices are dropped and the emitted chain is strictly increasing. -/
theorem phase_events_monotonic_witness :
    processMsgs runnerInit
        [Msg.phaseStarted ⟨0, 0⟩, Msg.phaseStarted ⟨0, 1⟩,
         Msg.phaseStarted ⟨2, 0⟩, Msg.phaseStarted ⟨1, 0⟩]
      = some ({ workers := [], currentPhase := 2,
                intermediates := [], allIntermediates := [] },
              [Event.phaseStarted ⟨0, 0⟩, Event.phaseStarted ⟨2, 0⟩]) ∧
    List.Chain' (· < ·) (runnerInit.currentPhase ::
      phaseIndices [Event.phaseStarted ⟨0, 0⟩, Event.phaseStarted ⟨2, 0⟩]) :=
  ⟨by decide,
   (phase_events_monotonic
      [Msg.phaseStarted ⟨0, 0⟩, Msg.phaseStarted ⟨0, 1⟩,
       Msg.phaseStarted ⟨2, 0⟩, Msg.phaseStarted ⟨1, 0⟩]
      runnerInit
      { workers := [], currentPhase := 2, intermediates := [], allIntermediates := [] }
      [Event.phaseStarted ⟨0, 0⟩, Event.phaseStarted ⟨2, 0⟩]
      (by decide)).1⟩

theorem flushedMerged_append (evs1 evs2 : List Event) :
    flushedMerged (evs1 ++ evs2) = flushedMerged evs1 ++ flushedMerged evs2 := by
  induction evs1 with
  | nil => rfl
  | cons e rest ih => simp [flushedMerged, ih]

/-- Per-step snapshot conservation: the snapshots flushed by one step plus
the pending buffer afterwards are the pending buffer before plus the
snapshots the step received; and a tick always clears the buffer. -/
theorem step_buffer_conservation (s : RunnerState) (a : Action)
    (s1 : RunnerState) (evs : List Event)
    (h : stepAction s a = some (s1, evs)) :
    flushedMerged evs ++ s1.intermediates.map Prod.snd
      = s.intermediates.map Prod.snd ++ statsSnapA a ∧
    (a = Action.tick → s1.intermediates = []) := by
  cases a with
  | tick =>
      simp only [stepAction, sendStats, Option.some.injEq, Prod.mk.injEq] at h
      obtain ⟨rfl, rfl⟩ := h
      simp [flushedMerged, flushReport, statsSnapA, combine]
  | msg m =>
      simp only [stepAction] at h
      refine ⟨?_, by intro hc; cases hc⟩
      cases m with
      | phaseStarted ph =>
          by_cases hlt : s.currentPhase < ph.index
          · simp only [onWorkerMessage, if_pos hlt, Option.some.injEq, Prod.mk.injEq] at h
            obtain ⟨rfl, rfl⟩ := h
            simp [flushedMerged, flushReport, statsSnapA, statsSnap]
          · simp only [onWorkerMessage, if_neg hlt, Option.some.injEq, Prod.mk.injEq] at h
            obtain ⟨rfl, rfl⟩ := h
            simp [flushedMerged, statsSnapA, statsSnap]
      | phaseCompleted =>
          simp only [onWorkerMessage, Option.some.injEq, Prod.mk.injEq] at h
          obtain ⟨rfl, rfl⟩ := h
          simp [flushedMerged, statsSnapA, statsSnap]
      | statsMsg pid snap =>
          simp only [onWorkerMessage, Option.some.injEq, Prod.mk.injEq] at h
          obtain ⟨rfl, rfl⟩ := h
          simp [flushedMerged, statsSnapA, statsSnap]
      | doneMsg pid =>
          simp only [onWorkerMessage] at h
          cases hw : wfind pid s.workers with
          | none => rw [hw] at h; cases h
          | some h0 =>
              rw [hw] at h
              by_cases hac : activeWorkerCount (setDone pid s.workers) = 0
              · simp only [hac, if_true, sendStats, Option.some.injEq, Prod.mk.injEq] at h
                obtain ⟨rfl, rfl⟩ := h
                simp [flushedMerged, flushReport, statsSnapA, statsSnap, combine]
              · simp only [hac, if_false, Option.some.injEq, Prod.mk.injEq] at h
                obtain ⟨rfl, rfl⟩ := h
                simp [flushedMerged, statsSnapA, statsSnap]
      | other ev =>
          simp only [onWorkerMessage, Option.some.injEq, Prod.mk.injEq] at h
          obtain ⟨rfl, rfl⟩ := h
          simp [flushedMerged, statsSnapA, statsSnap]

/-- Per-step history bookkeeping: `allIntermediates` grows by exactly the
snapshots received in the step (a flush never drains it), and any `done`
event emitted by the step carries the combine of the full history. -/
theorem step_history (s : RunnerState) (a : Action)
    (s1 : RunnerState) (evs : List Event)
    (h : stepAction s a = some (s1, evs)) :
    s1.allIntermediates = s.allIntermediates ++ statsSnapA a ∧
    (∀ r, Event.doneEv r ∈ evs → r = combine s.allIntermediates) := by
  cases a with
  | tick =>
      simp only [stepAction, sendStats, Option.some.injEq, Prod.mk.injEq] at h
      obtain ⟨rfl, rfl⟩ := h
      constructor
      · simp [statsSnapA]
      · intro r hr
        simp at hr
  | msg m =>
      simp only [stepAction] at h
      cases m with
      | phaseStarted ph =>
          by_cases hlt : s.currentPhase < ph.index
          · simp only [onWorkerMessage, if_pos hlt, Option.some.injEq, Prod.mk.injEq] at h
            obtain ⟨rfl, rfl⟩ := h
            exact ⟨by simp [statsSnapA, statsSnap], by intro r hr; simp at hr⟩
          · simp only [onWorkerMessage, if_neg hlt, Option.some.injEq, Prod.mk.injEq] at h
            obtain ⟨rfl, rfl⟩ := h
            exact ⟨by simp [statsSnapA, statsSnap], by intro r hr; simp at hr⟩
      | phaseCompleted =>
          simp only [onWorkerMessage, Option.some.injEq, Prod.mk.injEq] at h
          obtain ⟨rfl, rfl⟩ := h
          exact ⟨by simp [statsSnapA, statsSnap], by intro r hr; simp at hr⟩
      | statsMsg pid snap =>
          simp only [onWorkerMessage, Option.some.injEq, Prod.mk.injEq] at h
          obtain ⟨rfl, rfl⟩ := h
          exact ⟨by simp [statsSnapA, statsSnap], by intro r hr; simp at hr⟩
      | doneMsg pid =>
          simp only [onWorkerMessage] at h
          cases hw : wfind pid s.workers with
          | none => rw [hw] at h; cases h
          | some h0 =>
              rw [hw] at h
              by_cases hac : activeWorkerCount (setDone pid s.workers) = 0
              · simp only [hac, if_true, sendStats, Option.some.injEq, Prod.mk.injEq] at h
                obtain ⟨rfl, rfl⟩ := h
                constructor
                · simp [statsSnapA, statsSnap]
                · intro r hr
                  simp at hr
                  exact hr
              · simp only [hac, if_false, Option.some.injEq, Prod.mk.injEq] at h
                obtain ⟨rfl, rfl⟩ := h
                exact ⟨by simp [statsSnapA, statsSnap], by intro r hr; simp at hr⟩
      | other ev =>
          simp only [onWorkerMessage, Option.some.injEq, Prod.mk.injEq] at h
          obtain ⟨rfl, rfl⟩ := h
          exact ⟨by simp [statsSnapA, statsSnap], by intro r hr; simp at hr⟩

/-- C5: every flush empties the pending buffer and reports exactly the
snapshots that were pending; over any stimulus sequence the snapshots
consumed by the emitted flush reports, followed by what is still pending,
are exactly the initially pending snapshots followed by those received —
so each buffered snapshot is consumed by exactly one flush, and a snapshot
received after a flush can only appear in a later flush's report. -/
theorem flush_clears_and_partitions :
    (∀ s : RunnerState, (sendStats s).1.intermediates = []) ∧
    (∀ s : RunnerState, flushReport (sendStats s).2 = s.intermediates.map Prod.snd) ∧
    (∀ (acts : List Action) (s s' : RunnerState) (evs : List Event),
       processActions s acts = some (s', evs) →
       flushedMerged evs ++ s'.intermediates.map Prod.snd
         = s.intermediates.map Prod.snd ++ statsReceivedA acts) := by
  refine ⟨fun s => rfl, fun s => rfl, ?_⟩
  intro acts
  induction acts with
  | nil =>
      intro s s' evs h
      simp only [processActions, Option.some.injEq, Prod.mk.injEq] at h
      obtain ⟨rfl, rfl⟩ := h
      simp [flushedMerged, statsReceivedA]
  | cons a rest ih =>
      intro s s' evs h
      obtain ⟨s1, evs1, evs2, h1, h2, rfl⟩ := processActions_cons s a rest s' evs h
      have hstep := (step_buffer_conservation s a s1 evs1 h1).1
      have hrest := ih s1 s' evs2 h2
      rw [flushedMerged_append]
      calc flushedMerged evs1 ++ flushedMerged evs2 ++ s'.intermediates.map Prod.snd
          = flushedMerged evs1 ++ (flushedMerged evs2 ++ s'.intermediates.map Prod.snd) := by
            rw [List.append_assoc]
        _ = flushedMerged evs1 ++ (s1.intermediates.map Prod.snd ++ statsReceivedA rest) := by
            rw [hrest]
        _ = (flushedMerged evs1 ++ s1.intermediates.map Prod.snd) ++ statsReceivedA rest := by
            rw [List.append_assoc]
        _ = (s.intermediates.map Prod.snd ++ statsSnapA a) ++ statsReceivedA rest := by
            rw [hstep]
        _ = s.intermediates.map Prod.snd ++ (statsSnapA a ++ statsReceivedA rest) := by
            rw [List.append_assoc]
        _ = s.intermediates.map Prod.snd ++ statsReceivedA (a :: rest) := rfl

/-- C5 (witness): a tick flushes the one pending snapshot and empties the
buffer; a snapshot received afterwards stays pending for a later flush. -/
theorem flush_clears_and_partitions_witness :
    processActions
        { workers := [], currentPhase := -1,
          intermediates := [(1, ⟨2, 0⟩)], allIntermediates := [⟨2, 0⟩] }
        [Action.tick, Action.msg (Msg.statsMsg 1 ⟨3, 1⟩)]
      = some ({ workers := [], currentPhase := -1,
                intermediates := [(1, ⟨3, 1⟩)],
                allIntermediates := [⟨2, 0⟩, ⟨3, 1⟩] },
              [Event.statsEv { merged := [⟨2, 0⟩], conc := 2 }]) ∧
    flushedMerged [Event.statsEv { merged := [⟨2, 0⟩], conc := 2 }]
        ++ ([((1 : ℕ), (⟨3, 1⟩ : Snapshot))].map Prod.snd)
      = ([((1 : ℕ), (⟨2, 0⟩ : Snapshot))].map Prod.snd)
        ++ statsReceivedA [Action.tick, Action.msg (Msg.statsMsg 1 ⟨3, 1⟩)] :=
  ⟨by norm_num [processActions, stepAction, onWorkerMessage, sendStats, combine,
      maxWorkerConcurrencies, accumulateMax, valuesSum, sround, jsRound],
   flush_clears_and_partitions.2.2
     [Action.tick, Action.msg (Msg.statsMsg 1 ⟨3, 1⟩)]
     { workers := [], currentPhase := -1,
       intermediates := [(1, ⟨2, 0⟩)], allIntermediates := [⟨2, 0⟩] }
     { workers := [], currentPhase := -1,
       intermediates := [(1, ⟨3, 1⟩)], allIntermediates := [⟨2, 0⟩, ⟨3, 1⟩] }
     [Event.statsEv { merged := [⟨2, 0⟩], conc := 2 }]
     (by norm_num [processActions, stepAction, onWorkerMessage, sendStats, combine,
        maxWorkerConcurrencies, accumulateMax, valuesSum, sround, jsRound])⟩

/-- C4: any emitted `done` event carries the combine of the whole
`allIntermediates` history, and that history is never drained: over any
stimulus sequence (periodic flushes included) it grows by exactly the
snapshots received, so the final report merges every snapshot ever
received during the run, not just the last interval's pending buffer. -/
theorem done_payload_merges_full_history :
    (∀ (s : RunnerState) (a : Action) (s1 : RunnerState) (evs : List Event),
       stepAction s a = some (s1, evs) →
       ∀ r, Event.doneEv r ∈ evs → r = combine s.allIntermediates) ∧
    (∀ (acts : List Action) (s s' : RunnerState) (evs : List Event),
       processActions s acts = some (s', evs) →
       s'.allIntermediates = s.allIntermediates ++ statsReceivedA acts) := by
  constructor
  · intro s a s1 evs h r hr
    exact (step_history s a s1 evs h).2 r hr
  · intro acts
    induction acts with
    | nil =>
        intro s s' evs h
        simp only [processActions, Option.some.injEq, Prod.mk.injEq] at h
        obtain ⟨rfl, rfl⟩ := h
        simp [statsReceivedA]
    | cons a rest ih =>
        intro s s' evs h
        obtain ⟨s1, evs1, evs2, h1, h2, rfl⟩ := processActions_cons s a rest s' evs h
        have hstep := (step_history s a s1 evs1 h1).1
        have hrest := ih s1 s' evs2 h2
        rw [hrest, hstep, List.append_assoc]
        rfl

/-- C4 (witness): the worker's `done` emits a final report combining the
full history (`conc 5` was drained by an earlier flush, `conc 2` is still
pending), not just the pending buffer. -/
theorem done_payload_merges_full_history_witness :
    stepAction
        { workers := [(1, ⟨false⟩)], currentPhase := -1,
          intermediates := [(1, ⟨2, 0⟩)], allIntermediates := [⟨5, 0⟩, ⟨2, 0⟩] }
        (Action.msg (Msg.doneMsg 1))
      = some ({ workers := [(1, ⟨true⟩)], currentPhase := -1,
                intermediates := [], allIntermediates := [⟨5, 0⟩, ⟨2, 0⟩] },
              [Event.statsEv { merged := [⟨2, 0⟩], conc := 2 },
               Event.doneEv { merged := [⟨5, 0⟩, ⟨2, 0⟩], conc := 7 }]) ∧
    ({ merged := [⟨5, 0⟩, ⟨2, 0⟩], conc := 7 } : Report)
      = combine ([⟨5, 0⟩, ⟨2, 0⟩] : List Snapshot) :=
  ⟨by norm_num [stepAction, onWorkerMessage, sendStats, combine, wfind, setDone,
      activeWorkerCount, maxWorkerConcurrencies, accumulateMax, valuesSum, sround, jsRound],
   done_payload_merges_full_history.1
     { workers := [(1, ⟨false⟩)], currentPhase := -1,
       intermediates := [(1, ⟨2, 0⟩)], allIntermediates := [⟨5, 0⟩, ⟨2, 0⟩] }
     (Action.msg (Msg.doneMsg 1))
     { workers := [(1, ⟨true⟩)], currentPhase := -1,
       intermediates := [], allIntermediates := [⟨5, 0⟩, ⟨2, 0⟩] }
     [Event.statsEv { merged := [⟨2, 0⟩], conc := 2 },
      Event.doneEv { merged := [⟨5, 0⟩, ⟨2, 0⟩], conc := 7 }]
     (by norm_num [stepAction, onWorkerMessage, sendStats, combine, wfind, setDone,
        activeWorkerCount, maxWorkerConcurrencies, accumulateMax, valuesSum, sround, jsRound])
     { merged := [⟨5, 0⟩, ⟨2, 0⟩], conc := 7 }
     (by simp)⟩

theorem countDoneEvents_append (evs1 evs2 : List Event) :
    countDoneEvents (evs1 ++ evs2) = countDoneEvents evs1 + countDoneEvents evs2 := by
  simp [countDoneEvents]

theorem countDoneEvents_pos_of_mem (evs : List Event) (r : Report)
    (h : Event.doneEv r ∈ evs) : 1 ≤ countDoneEvents evs := by
  have : Event.doneEv r ∈ evs.filter isDoneEv :=
    List.mem_filter.mpr ⟨h, by simp [isDoneEv]⟩
  exact List.length_pos_of_mem this

theorem awc_foldl (w : WMap) :
    ∀ n : ℕ, (w.filter (fun e => e.2.isDone)).length ≤ n →
      w.foldl (fun count e => if e.2.isDone then count - 1 else count) n
        = n - (w.filter (fun e => e.2.isDone)).length := by
  induction w with
  | nil => intro n _; rfl
  | cons e rest ih =>
      intro n hn
      by_cases hd : e.2.isDone
      · have hlen : ((e :: rest).filter (fun e => e.2.isDone)).length
            = (rest.filter (fun e => e.2.isDone)).length + 1 := by
          simp [List.filter_cons, hd]
        rw [hlen] at hn ⊢
        have : (rest.filter (fun e => e.2.isDone)).length ≤ n - 1 := by omega
        simp only [List.foldl_cons, if_pos hd]
        rw [ih (n - 1) this]
        omega
      · have hlen : ((e :: rest).filter (fun e => e.2.isDone)).length
            = (rest.filter (fun e => e.2.isDone)).length := by
          simp [List.filter_cons, hd]
        rw [hlen] at hn ⊢
        simp only [List.foldl_cons, if_neg hd]
        exact ih n hn

theorem filter_done_split (w : WMap) :
    (w.filter (fun e => e.2.isDone)).length + notDoneCount w = w.length := by
  induction w with
  | nil => rfl
  | cons e rest ih =>
      by_cases hd : e.2.isDone <;>
        simp [notDoneCount, List.filter_cons, hd] at ih ⊢ <;> omega

theorem activeWorkerCount_eq_notDoneCount (w : WMap) :
    activeWorkerCount w = notDoneCount w := by
  have hsplit := filter_done_split w
  have hle : (w.filter (fun e => e.2.isDone)).length ≤ w.length := by omega
  unfold activeWorkerCount
  rw [awc_foldl w w.length hle]
  omega

theorem wfind_mem (p : ℕ) (w : WMap) (h : WorkerHandle)
    (hf : wfind p w = some h) : (p, h) ∈ w := by
  induction w with
  | nil => cases hf
  | cons e rest ih =>
      obtain ⟨k, g⟩ := e
      by_cases hk : k = p
      · subst hk
        simp [wfind] at hf
        subst hf
        exact List.mem_cons_self _ _
      · simp [wfind, hk] at hf
        exact List.mem_cons_of_mem _ (ih hf)

theorem wfind_isSome_of_mem_keys (p : ℕ) (w : WMap)
    (h : p ∈ w.map Prod.fst) : ∃ g, wfind p w = some g := by
  induction w with
  | nil => simp at h
  | cons e rest ih =>
      obtain ⟨k, g⟩ := e
      by_cases hk : k = p
      · exact ⟨g, by simp [wfind, hk]⟩
      · rw [List.map_cons] at h
        rcases List.mem_cons.mp h with h | h
        · simp at h
          exact absurd h.symm hk
        · obtain ⟨g', hg'⟩ := ih h
          exact ⟨g', by simp [wfind, hk, hg']⟩

theorem wfind_setDone (q p : ℕ) (w : WMap) :
    wfind q (setDone p w)
      = if q = p then Option.map (fun h => { h with isDone := true }) (wfind p w)
        else wfind q w := by
  induction w with
  | nil =>
      by_cases hq : q = p <;> simp [setDone, wfind, hq]
  | cons e rest ih =>
      obtain ⟨k, g⟩ := e
      by_cases hk : k = p
      · subst hk
        by_cases hq : q = k
        · subst hq; simp [setDone, wfind]
        · simp [setDone, wfind, hq, Ne.symm hq]
      · by_cases hq : k = q
        · subst hq
          simp [setDone, wfind, hk, fun h : k = p => hk h]
        · simp [setDone, wfind, hk, hq, ih]

theorem keys_setDone (p : ℕ) (w : WMap) :
    (setDone p w).map Prod.fst = w.map Prod.fst := by
  induction w with
  | nil => rfl
  | cons e rest ih =>
      obtain ⟨k, g⟩ := e
      by_cases hk : k = p <;> simp [setDone, hk, ih]

theorem notDoneCount_setDone (p : ℕ) (w : WMap) (h : WorkerHandle)
    (hf : wfind p w = some h) (hd : h.isDone = false) :
    notDoneCount (setDone p w) + 1 = notDoneCount w := by
  induction w with
  | nil => cases hf
  | cons e rest ih =>
      obtain ⟨k, g⟩ := e
      by_cases hk : k = p
      · subst hk
        simp [wfind] at hf
        subst hf
        simp [setDone, notDoneCount, List.filter_cons, hd]
      · simp [wfind, hk] at hf
        have := ih hf
        by_cases hg : g.isDone <;>
          simp [setDone, hk, notDoneCount, List.filter_cons, hg] at this ⊢ <;> omega

theorem notDoneCount_setDone_le (p : ℕ) (w : WMap) :
    notDoneCount (setDone p w) ≤ notDoneCount w := by
  induction w with
  | nil => exact le_refl _
  | cons e rest ih =>
      obtain ⟨k, g⟩ := e
      by_cases hk : k = p
      · subst hk
        by_cases hg : g.isDone <;>
          simp [setDone, notDoneCount, List.filter_cons, hg] <;> omega
      · by_cases hg : g.isDone <;>
          simp [setDone, hk, notDoneCount, List.filter_cons, hg] at ih ⊢ <;> omega

theorem notDoneCount_fold_setDone_le (ps : List ℕ) :
    ∀ w : WMap, notDoneCount (ps.foldl (fun w p => setDone p w) w) ≤ notDoneCount w := by
  induction ps with
  | nil => intro w; exact le_refl _
  | cons p ps ih =>
      intro w
      exact le_trans (ih (setDone p w)) (notDoneCount_setDone_le p w)

theorem notDoneCount_pos (w : WMap) (p : ℕ) (h : WorkerHandle)
    (hf : wfind p w = some h) (hd : h.isDone = false) :
    0 < notDoneCount w := by
  have hmem : (p, h) ∈ w := wfind_mem p w h hf
  have : (p, h) ∈ w.filter (fun e => !e.2.isDone) :=
    List.mem_filter.mpr ⟨hmem, by simp [hd]⟩
  exact List.length_pos_of_mem this

theorem markIf_map_id (p : ℕ) (w : WMap) (h : p ∉ w.map Prod.fst) :
    w.map (fun e => if e.1 = p then (e.1, { e.2 with isDone := true }) else e) = w := by
  induction w with
  | nil => rfl
  | cons e rest ih =>
      obtain ⟨k, g⟩ := e
      rw [List.map_cons] at h
      have hk : ¬ k = p := by
        intro hkp
        exact h (hkp ▸ List.mem_cons_self _ _)
      have hrest : p ∉ rest.map Prod.fst := fun hm => h (List.mem_cons_of_mem _ hm)
      simp [hk, ih hrest]

theorem setDone_eq_map (p : ℕ) (w : WMap) (hnd : (w.map Prod.fst).Nodup) :
    setDone p w
      = w.map (fun e => if e.1 = p then (e.1, { e.2 with isDone := true }) else e) := by
  induction w with
  | nil => rfl
  | cons e rest ih =>
      obtain ⟨k, g⟩ := e
      rw [List.map_cons, List.nodup_cons] at hnd
      obtain ⟨hk, hrest⟩ := hnd
      by_cases hkp : k = p
      · subst hkp
        simp [setDone, markIf_map_id k rest hk]
      · simp [setDone, hkp, ih hrest]

theorem fold_setDone_eq_map (ps : List ℕ) :
    ∀ w : WMap, (w.map Prod.fst).Nodup →
      ps.foldl (fun w p => setDone p w) w
        = w.map (fun e => if e.1 ∈ ps then (e.1, { e.2 with isDone := true }) else e) := by
  induction ps with
  | nil =>
      intro w _
      simp
  | cons p ps ih =>
      intro w hnd
      have hnd' : ((setDone p w).map Prod.fst).Nodup := by
        rw [keys_setDone]; exact hnd
      calc (p :: ps).foldl (fun w p => setDone p w) w
          = ps.foldl (fun w p => setDone p w) (setDone p w) := rfl
        _ = (setDone p w).map
              (fun e => if e.1 ∈ ps then (e.1, { e.2 with isDone := true }) else e) :=
            ih (setDone p w) hnd'
        _ = (w.map (fun e => if e.1 = p then (e.1, { e.2 with isDone := true }) else e)).map
              (fun e => if e.1 ∈ ps then (e.1, { e.2 with isDone := true }) else e) := by
            rw [setDone_eq_map p w hnd]
        _ = w.map (fun e => if e.1 ∈ p :: ps then (e.1, { e.2 with isDone := true }) else e) := by
            rw [List.map_map]
            apply List.map_congr_left
            intro e _
            by_cases hp : e.1 = p
            · by_cases hmem : e.1 ∈ ps <;> simp [Function.comp, hp, hmem]
            · by_cases hmem : e.1 ∈ ps <;> simp [Function.comp, hp, hmem]

theorem notDoneCount_markIf_zero_iff (ps : List ℕ) (w : WMap)
    (hfresh : ∀ e ∈ w, e.2.isDone = false) :
    notDoneCount (w.map (fun e => if e.1 ∈ ps then (e.1, { e.2 with isDone := true }) else e)) = 0
      ↔ ∀ p ∈ w.map Prod.fst, p ∈ ps := by
  induction w with
  | nil => simp [notDoneCount]
  | cons e rest ih =>
      obtain ⟨k, g⟩ := e
      have hg : g.isDone = false := hfresh (k, g) (List.mem_cons_self _ _)
      have hrest : ∀ e ∈ rest, e.2.isDone = false :=
        fun e he => hfresh e (List.mem_cons_of_mem _ he)
      by_cases hk : k ∈ ps
      · simp only [List.map_cons, if_pos hk, notDoneCount, List.filter_cons]
        simp only [notDoneCount] at ih
        simp [ih hrest, hk]
      · simp only [List.map_cons, if_neg hk, notDoneCount, List.filter_cons, hg]
        simp only [notDoneCount] at ih
        simp [hk, hg]

theorem notDoneCount_all_fresh (w : WMap) (hfresh : ∀ e ∈ w, e.2.isDone = false) :
    notDoneCount w = w.length := by
  unfold notDoneCount
  rw [List.filter_eq_self.mpr (fun e he => by simp [hfresh e he])]

/-- How one message handler step affects the registry and the `done`
event: a `done` message marks its worker and, exactly when the registry
has no active worker left, emits a flush followed by the single `done`
event (clearing the pending buffer); every other message leaves the
registry alone and emits no `done` event. -/
theorem step_done_cases (s : RunnerState) (m : Msg) (s1 : RunnerState) (evs : List Event)
    (h : onWorkerMessage s m = some (s1, evs)) :
    (∃ pid h0, m = Msg.doneMsg pid ∧ wfind pid s.workers = some h0 ∧
        s1.workers = setDone pid s.workers ∧
        ((activeWorkerCount (setDone pid s.workers) = 0 ∧ countDoneEvents evs = 1 ∧
            (∃ q r, evs = [Event.statsEv q, Event.doneEv r]) ∧ s1.intermediates = []) ∨
         (activeWorkerCount (setDone pid s.workers) ≠ 0 ∧ evs = []))) ∨
    ((∀ pid, m ≠ Msg.doneMsg pid) ∧ s1.workers = s.workers ∧ countDoneEvents evs = 0 ∧
       (∀ r, Event.doneEv r ∉ evs)) := by
  cases m with
  | phaseStarted ph =>
      right
      by_cases hlt : s.currentPhase < ph.index
      · simp only [onWorkerMessage, if_pos hlt, Option.some.injEq, Prod.mk.injEq] at h
        obtain ⟨rfl, rfl⟩ := h
        refine ⟨fun pid hc => Msg.noConfusion hc, rfl, by simp [countDoneEvents, isDoneEv], ?_⟩
        intro r hr
        simp at hr
      · simp only [onWorkerMessage, if_neg hlt, Option.some.injEq, Prod.mk.injEq] at h
        obtain ⟨rfl, rfl⟩ := h
        exact ⟨fun pid hc => Msg.noConfusion hc, rfl, rfl, by intro r hr; simp at hr⟩
  | phaseCompleted =>
      right
      simp only [onWorkerMessage, Option.some.injEq, Prod.mk.injEq] at h
      obtain ⟨rfl, rfl⟩ := h
      exact ⟨fun pid hc => Msg.noConfusion hc, rfl, rfl, by intro r hr; simp at hr⟩
  | statsMsg pid snap =>
      right
      simp only [onWorkerMessage, Option.some.injEq, Prod.mk.injEq] at h
      obtain ⟨rfl, rfl⟩ := h
      exact ⟨fun pid hc => Msg.noConfusion hc, rfl, rfl, by intro r hr; simp at hr⟩
  | doneMsg pid =>
      left
      simp only [onWorkerMessage] at h
      cases hw : wfind pid s.workers with
      | none => rw [hw] at h; cases h
      | some h0 =>
          rw [hw] at h
          by_cases hac : activeWorkerCount (setDone pid s.workers) = 0
          · simp only [hac, if_true, sendStats, Option.some.injEq, Prod.mk.injEq] at h
            obtain ⟨rfl, rfl⟩ := h
            refine ⟨pid, h0, rfl, hw, rfl, Or.inl ⟨hac, ?_, ⟨_, _, rfl⟩, rfl⟩⟩
            simp [countDoneEvents, isDoneEv]
          · simp only [hac, if_false, Option.some.injEq, Prod.mk.injEq] at h
            obtain ⟨rfl, rfl⟩ := h
            exact ⟨pid, h0, rfl, hw, rfl, Or.inr ⟨hac, rfl⟩⟩
  | other ev =>
      right
      simp only [onWorkerMessage, Option.some.injEq, Prod.mk.injEq] at h
      obtain ⟨rfl, rfl⟩ := h
      exact ⟨fun pid hc => Msg.noConfusion hc, rfl, rfl, by intro r hr; simp at hr⟩

theorem processMsgs_cons_build (s : RunnerState) (m : Msg) (rest : List Msg)
    (s1 s2 : RunnerState) (evs1 evs2 : List Event)
    (h1 : onWorkerMessage s m = some (s1, evs1))
    (h2 : processMsgs s1 rest = some (s2, evs2)) :
    processMsgs s (m :: rest) = some (s2, evs1 ++ evs2) := by
  simp only [processMsgs, h1, h2]

/-- Completion counting: as long as each `done` message names a distinct
worker that is registered and not yet done, processing succeeds, the
registry ends with exactly the named workers marked done, and the number
of emitted `done` events is one exactly when the run went from having
active workers to having none. -/
theorem processMsgs_completion (msgs : List Msg) :
    ∀ s : RunnerState,
      (donePids msgs).Nodup →
      (∀ p ∈ donePids msgs, ∃ h, wfind p s.workers = some h ∧ h.isDone = false) →
      ∃ s' evs, processMsgs s msgs = some (s', evs) ∧
        s'.workers = (donePids msgs).foldl (fun w p => setDone p w) s.workers ∧
        countDoneEvents evs
          = if notDoneCount s'.workers = 0 ∧ notDoneCount s.workers ≠ 0 then 1 else 0 := by
  induction msgs with
  | nil =>
      intro s _ _
      refine ⟨s, [], rfl, rfl, ?_⟩
      have : ¬ (notDoneCount s.workers = 0 ∧ notDoneCount s.workers ≠ 0) :=
        fun hc => hc.2 hc.1
      rw [if_neg this]
      rfl
  | cons m rest ih =>
      intro s hnodup hok
      cases m with
      | doneMsg pid =>
          have hdp : donePids (Msg.doneMsg pid :: rest) = pid :: donePids rest := rfl
          rw [hdp] at hnodup hok
          obtain ⟨h0, hw, hfr⟩ := hok pid (List.mem_cons_self _ _)
          have hpidrest : pid ∉ donePids rest := (List.nodup_cons.mp hnodup).1
          have hnodup' : (donePids rest).Nodup := (List.nodup_cons.mp hnodup).2
          have hcount : notDoneCount (setDone pid s.workers) + 1 = notDoneCount s.workers :=
            notDoneCount_setDone pid s.workers h0 hw hfr
          have hpos : 0 < notDoneCount s.workers := notDoneCount_pos s.workers pid h0 hw hfr
          -- the handles named by the remaining done messages are unchanged
          have hok' : ∀ w' : WMap, wfind pid s.workers = some h0 →
              ∀ p ∈ donePids rest, ∃ h, wfind p (setDone pid s.workers) = some h ∧
                h.isDone = false := by
            intro _ _ p hp
            obtain ⟨h1, hw1, hf1⟩ := hok p (List.mem_cons_of_mem _ hp)
            have hne : p ≠ pid := fun hpe => hpidrest (hpe ▸ hp)
            refine ⟨h1, ?_, hf1⟩
            rw [wfind_setDone, if_neg hne]
            exact hw1
          by_cases hac : notDoneCount (setDone pid s.workers) = 0
          · -- last active worker: flush + done event now
            have hstep : onWorkerMessage s (Msg.doneMsg pid)
                = some ({ s with workers := setDone pid s.workers, intermediates := [] },
                    [(sendStats { s with workers := setDone pid s.workers }).2,
                     Event.doneEv (combine s.allIntermediates)]) := by
              have hac' : activeWorkerCount (setDone pid s.workers) = 0 := by
                rw [activeWorkerCount_eq_notDoneCount]; exact hac
              simp only [onWorkerMessage, hw, hac', if_true, sendStats]
            set smid : RunnerState :=
              { s with workers := setDone pid s.workers, intermediates := [] } with hsmid
            obtain ⟨s', evs2, hrest, hwk, hcnt⟩ :=
              ih smid hnodup' (hok' smid.workers hw)
            refine ⟨s', _ ++ evs2,
              processMsgs_cons_build s (Msg.doneMsg pid) rest smid s' _ evs2 hstep hrest,
              ?_, ?_⟩
            · rw [hwk]
              rfl
            · rw [countDoneEvents_append]
              have hcnt2 : countDoneEvents evs2 = 0 := by
                rw [hcnt]
                have : ¬ (notDoneCount s'.workers = 0 ∧ notDoneCount smid.workers ≠ 0) := by
                  intro hc
                  exact hc.2 hac
                rw [if_neg this]
              have hzero : notDoneCount s'.workers = 0 := by
                have hle : notDoneCount s'.workers ≤ notDoneCount smid.workers := by
                  rw [hwk]
                  exact notDoneCount_fold_setDone_le (donePids rest) smid.workers
                have hsw : smid.workers = setDone pid s.workers := rfl
                rw [hsw] at hle
                omega
              have hcond : notDoneCount s'.workers = 0 ∧ notDoneCount s.workers ≠ 0 :=
                ⟨hzero, by omega⟩
              rw [if_pos hcond, hcnt2]
              simp [countDoneEvents, isDoneEv, sendStats]
          · -- other workers still active: no event yet
            have hstep : onWorkerMessage s (Msg.doneMsg pid)
                = some ({ s with workers := setDone pid s.workers }, []) := by
              have hac' : activeWorkerCount (setDone pid s.workers) ≠ 0 := by
                rw [activeWorkerCount_eq_notDoneCount]; exact hac
              simp only [onWorkerMessage, hw, hac', if_false]
            set smid : RunnerState := { s with workers := setDone pid s.workers } with hsmid
            obtain ⟨s', evs2, hrest, hwk, hcnt⟩ :=
              ih smid hnodup' (hok' smid.workers hw)
            refine ⟨s', [] ++ evs2,
              processMsgs_cons_build s (Msg.doneMsg pid) rest smid s' [] evs2 hstep hrest,
              ?_, ?_⟩
            · rw [hwk]
              rfl
            · rw [countDoneEvents_append, hcnt]
              have heq : countDoneEvents ([] : List Event) = 0 := rfl
              rw [heq]
              have : (notDoneCount s'.workers = 0 ∧ notDoneCount smid.workers ≠ 0)
                  ↔ (notDoneCount s'.workers = 0 ∧ notDoneCount s.workers ≠ 0) := by
                constructor
                · intro hc
                  exact ⟨hc.1, by omega⟩
                · intro hc
                  exact ⟨hc.1, hac⟩
              rw [if_congr this rfl rfl]
              omega
      | phaseStarted ph =>
          have hdp : donePids (Msg.phaseStarted ph :: rest) = donePids rest := rfl
          rw [hdp] at hnodup hok
          by_cases hlt : s.currentPhase < ph.index
          · have hstep : onWorkerMessage s (Msg.phaseStarted ph)
                = some ({ s with currentPhase := ph.index }, [Event.phaseStarted ph]) := by
              simp only [onWorkerMessage, if_pos hlt]
            set smid : RunnerState := { s with currentPhase := ph.index } with hsmid
            obtain ⟨s', evs2, hrest, hwk, hcnt⟩ := ih smid hnodup hok
            refine ⟨s', [Event.phaseStarted ph] ++ evs2,
              processMsgs_cons_build s _ rest smid s' _ evs2 hstep hrest, hwk, ?_⟩
            rw [countDoneEvents_append, hcnt]
            simp [countDoneEvents, isDoneEv]
          · have hstep : onWorkerMessage s (Msg.phaseStarted ph) = some (s, []) := by
              simp only [onWorkerMessage, if_neg hlt]
            obtain ⟨s', evs2, hrest, hwk, hcnt⟩ := ih s hnodup hok
            exact ⟨s', [] ++ evs2,
              processMsgs_cons_build s _ rest s s' [] evs2 hstep hrest, hwk, by
                rw [countDoneEvents_append, hcnt]; simp [countDoneEvents]⟩
      | phaseCompleted =>
          obtain ⟨s', evs2, hrest, hwk, hcnt⟩ := ih s hnodup hok
          exact ⟨s', [] ++ evs2,
            processMsgs_cons_build s _ rest s s' [] evs2 rfl hrest, hwk, by
              rw [countDoneEvents_append, hcnt]; simp [countDoneEvents]⟩
      | statsMsg pid snap =>
          have hdp : donePids (Msg.statsMsg pid snap :: rest) = donePids rest := rfl
          rw [hdp] at hnodup hok
          set smid : RunnerState :=
            { s with intermediates := s.intermediates ++ [(pid, snap)],
                     allIntermediates := s.allIntermediates ++ [snap] } with hsmid
          obtain ⟨s', evs2, hrest, hwk, hcnt⟩ := ih smid hnodup hok
          exact ⟨s', [] ++ evs2,
            processMsgs_cons_build s _ rest smid s' [] evs2 rfl hrest, hwk, by
              rw [countDoneEvents_append, hcnt]; simp [countDoneEvents]⟩
      | other ev =>
          obtain ⟨s', evs2, hrest, hwk, hcnt⟩ := ih s hnodup hok
          exact ⟨s', [] ++ evs2,
            processMsgs_cons_build s _ rest s s' [] evs2 rfl hrest, hwk, by
              rw [countDoneEvents_append, hcnt]; simp [countDoneEvents]⟩

/-- C2: for a run that spawned the (distinct, not-yet-done) workers `W`,
and any inbound message sequence in which each worker reports `done` at
most once and only registered workers report `done`, processing succeeds
and the number of emitted `done` events is exactly one when every spawned
worker has reported `done` and exactly zero otherwise (in particular,
with 3 workers spawned and 2 `done` messages no `done` event fires);
moreover any `done` event is emitted immediately after a final flush
(a `stats` event in the same handler step, leaving the buffer empty). -/
theorem done_fires_exactly_once (W : WMap) (cp : ℤ) (ints : List (ℕ × Snapshot))
    (alls : List Snapshot) (msgs : List Msg)
    (hknd : (W.map Prod.fst).Nodup)
    (hfresh : ∀ e ∈ W, e.2.isDone = false)
    (hmem : ∀ p ∈ donePids msgs, p ∈ W.map Prod.fst)
    (hnodup : (donePids msgs).Nodup) :
    (∃ s' evs,
       processMsgs { workers := W, currentPhase := cp,
                     intermediates := ints, allIntermediates := alls } msgs
         = some (s', evs) ∧
       countDoneEvents evs
         = if W ≠ [] ∧ (∀ p ∈ W.map Prod.fst, p ∈ donePids msgs) then 1 else 0) ∧
    (∀ (t : RunnerState) (m : Msg) (t1 : RunnerState) (tevs : List Event),
       onWorkerMessage t m = some (t1, tevs) →
       ∀ r, Event.doneEv r ∈ tevs →
         ∃ q, tevs = [Event.statsEv q, Event.doneEv r] ∧ t1.intermediates = []) := by
  constructor
  · have hok : ∀ p ∈ donePids msgs, ∃ h, wfind p W = some h ∧ h.isDone = false := by
      intro p hp
      obtain ⟨g, hg⟩ := wfind_isSome_of_mem_keys p W (hmem p hp)
      exact ⟨g, hg, hfresh (p, g) (wfind_mem p W g hg)⟩
    obtain ⟨s', evs, hproc, hwk, hcnt⟩ :=
      processMsgs_completion msgs
        { workers := W, currentPhase := cp, intermediates := ints, allIntermediates := alls }
        hnodup hok
    refine ⟨s', evs, hproc, ?_⟩
    rw [hcnt]
    have hW : notDoneCount W = W.length := notDoneCount_all_fresh W hfresh
    have hzero_iff : notDoneCount s'.workers = 0
        ↔ ∀ p ∈ W.map Prod.fst, p ∈ donePids msgs := by
      rw [hwk]
      show notDoneCount ((donePids msgs).foldl (fun w p => setDone p w) W) = 0 ↔ _
      rw [fold_setDone_eq_map (donePids msgs) W hknd]
      exact notDoneCount_markIf_zero_iff (donePids msgs) W hfresh
    have hne_iff : notDoneCount W ≠ 0 ↔ W ≠ [] := by
      rw [hW]
      constructor
      · intro h hc
        exact h (by rw [hc]; rfl)
      · intro h hc
        exact h (List.length_eq_zero.mp hc)
    show (if notDoneCount s'.workers = 0 ∧ notDoneCount W ≠ 0 then 1 else 0)
        = if W ≠ [] ∧ (∀ p ∈ W.map Prod.fst, p ∈ donePids msgs) then 1 else 0
    have hcond : (notDoneCount s'.workers = 0 ∧ notDoneCount W ≠ 0)
        ↔ (W ≠ [] ∧ ∀ p ∈ W.map Prod.fst, p ∈ donePids msgs) := by
      constructor
      · intro hc
        exact ⟨hne_iff.mp hc.2, hzero_iff.mp hc.1⟩
      · intro hc
        exact ⟨hzero_iff.mpr hc.2, hne_iff.mpr hc.1⟩
    rw [if_congr hcond rfl rfl]
  · intro t m t1 tevs h r hr
    rcases step_done_cases t m t1 tevs h with
      ⟨pid, h0, hm, hw, hwk, hcase⟩ | ⟨_, _, _, hnone⟩
    · rcases hcase with ⟨hac, hcnt1, ⟨q, r', hevs⟩, hints⟩ | ⟨hac, hevs⟩
      · subst hevs
        simp only [List.mem_cons, List.mem_singleton] at hr
        rcases hr with hr | hr | hr
        · exact Event.noConfusion hr
        · have : r = r' := Event.noConfusion hr (fun h => h)
          subst this
          exact ⟨q, rfl, hints⟩
        · simp at hr
      · subst hevs
        simp at hr
    · exact absurd hr (hnone r)

/-- C2 (witness): three workers spawned, only two report `done` — no
`done` event fires. -/
theorem done_fires_exactly_once_witness :
    (((([((1 : ℕ), ({ isDone := false } : WorkerHandle)),
         (2, { isDone := false }), (3, { isDone := false })] : WMap).map Prod.fst).Nodup) ∧
     (∀ p ∈ donePids [Msg.doneMsg 1, Msg.doneMsg 2],
        p ∈ ([(1, ({ isDone := false } : WorkerHandle)), (2, { isDone := false }),
              (3, { isDone := false })] : WMap).map Prod.fst)) ∧
    (∃ s' evs,
       processMsgs { workers := [(1, { isDone := false }), (2, { isDone := false }),
                                 (3, { isDone := false })],
                     currentPhase := -1, intermediates := [], allIntermediates := [] }
           [Msg.doneMsg 1, Msg.doneMsg 2]
         = some (s', evs) ∧
       countDoneEvents evs
         = if ([(1, ({ isDone := false } : WorkerHandle)), (2, { isDone := false }),
                (3, { isDone := false })] : WMap) ≠ [] ∧
              (∀ p ∈ ([(1, ({ isDone := false } : WorkerHandle)), (2, { isDone := false }),
                       (3, { isDone := false })] : WMap).map Prod.fst,
                 p ∈ donePids [Msg.doneMsg 1, Msg.doneMsg 2])
           then 1 else 0) :=
  ⟨⟨by decide, by decide⟩,
   (done_fires_exactly_once
      [(1, { isDone := false }), (2, { isDone := false }), (3, { isDone := false })]
      (-1) [] [] [Msg.doneMsg 1, Msg.doneMsg 2]
      (by decide) (by decide) (by decide) (by decide)).1⟩

end Artillery
